import Mathlib

/-!
Verification of the per-channel job queue engine of the jmcomic-crawler chat
plugin.  The model below is a shallow embedding of the QueueManager class and
its processJob polling loop (src/unnamed/part_000):

* JavaScript arrays are heap cells (a function from array ids to job lists)
  because the run loop captures the array by reference while the
  channel-to-queue Map may be mutated independently;
* the channel Map is an association list in insertion order, as a JS Map is;
* the cooperative run loop is a set of frames, one per activated loop, each
  holding the array it captured and the job it is currently executing; a
  resume step is the synchronous continuation that runs when processJob of
  the current job settles (shift the captured array, then either continue
  with the new head or deactivate);
* enqueue, cancel and clear are the synchronous bodies of the corresponding
  methods;
* processJob itself (submit, poll with timeout and cancellation checks,
  deliver) is a separate fuel-indexed function over an oracle environment
  supplying poll results, durations and the abort flag;
* status-message handling (updateStatus / recallStatus / safeSend) is a small
  state machine over the reference to the outstanding status message.
-/

/-! ### Association lists with string keys (JS Map in insertion order) -/

def alookup {α : Type} : List (String × α) → String → Option α
  | [], _ => none
  | p :: t, k => if p.1 = k then some p.2 else alookup t k

def aerase {α : Type} : List (String × α) → String → List (String × α)
  | [], _ => []
  | p :: t, k => if p.1 = k then t else p :: aerase t k

theorem alookup_eq_none_iff {α : Type} (l : List (String × α)) (k : String) :
    alookup l k = none ↔ k ∉ l.map Prod.fst := by
  induction l with
  | nil => simp [alookup]
  | cons p t ih =>
    by_cases h : p.1 = k
    · subst h
      simp [alookup]
    · rw [alookup, if_neg h, List.map_cons, List.mem_cons, ih]
      constructor
      · intro hk hc
        rcases hc with hc | hc
        · exact h hc.symm
        · exact hk hc
      · intro hk hc
        exact hk (Or.inr hc)

theorem mem_of_alookup_eq_some {α : Type} {l : List (String × α)} {k : String} {a : α}
    (h : alookup l k = some a) : (k, a) ∈ l := by
  induction l with
  | nil => simp [alookup] at h
  | cons p t ih =>
    by_cases hp : p.1 = k
    · rw [alookup, if_pos hp] at h
      injection h with h2
      have hpe : p = (k, a) := by
        rcases p with ⟨p1, p2⟩
        rw [Prod.mk.injEq]
        exact ⟨hp, h2⟩
      rw [← hpe]
      exact List.mem_cons_self p t
    · rw [alookup, if_neg hp] at h
      exact List.mem_cons_of_mem _ (ih h)

theorem alookup_eq_of_mem {α : Type} {l : List (String × α)} {k : String} {a : α}
    (hnd : (l.map Prod.fst).Nodup) (h : (k, a) ∈ l) : alookup l k = some a := by
  induction l with
  | nil => simp at h
  | cons p t ih =>
    rw [List.map_cons, List.nodup_cons] at hnd
    rcases List.mem_cons.mp h with h1 | h1
    · rw [← h1]
      simp [alookup]
    · have hk : k ∈ t.map Prod.fst := List.mem_map.mpr ⟨(k, a), h1, rfl⟩
      have hne : p.1 ≠ k := fun he => hnd.1 (he ▸ hk)
      rw [alookup, if_neg hne]
      exact ih hnd.2 h1

theorem alookup_append_of_none {α : Type} {l : List (String × α)} {k : String}
    (m : List (String × α)) (h : alookup l k = none) :
    alookup (l ++ m) k = alookup m k := by
  induction l with
  | nil => simp
  | cons p t ih =>
    by_cases hp : p.1 = k
    · rw [alookup, if_pos hp] at h
      cases h
    · rw [alookup, if_neg hp] at h
      rw [List.cons_append, alookup, if_neg hp]
      exact ih h

theorem alookup_append_single_ne {α : Type} (l : List (String × α)) {k c : String}
    (a : α) (h : c ≠ k) : alookup (l ++ [(c, a)]) k = alookup l k := by
  induction l with
  | nil => simp [alookup, h]
  | cons p t ih =>
    by_cases hp : p.1 = k
    · rw [List.cons_append, alookup, if_pos hp, alookup, if_pos hp]
    · rw [List.cons_append, alookup, if_neg hp, alookup, if_neg hp]
      exact ih

theorem alookup_aerase_ne {α : Type} {l : List (String × α)} {k c : String}
    (h : c ≠ k) : alookup (aerase l k) c = alookup l c := by
  induction l with
  | nil => rfl
  | cons p t ih =>
    by_cases hp : p.1 = k
    · have hpc : p.1 ≠ c := by
        rw [hp]
        exact Ne.symm h
      rw [aerase, if_pos hp, alookup, if_neg hpc]
    · by_cases hc : p.1 = c
      · rw [aerase, if_neg hp, alookup, if_pos hc, alookup, if_pos hc]
      · rw [aerase, if_neg hp, alookup, if_neg hc, alookup, if_neg hc]
        exact ih

theorem aerase_sublist {α : Type} (l : List (String × α)) (k : String) :
    (aerase l k).Sublist l := by
  induction l with
  | nil => exact List.Sublist.refl []
  | cons p t ih =>
    by_cases hp : p.1 = k
    · rw [aerase, if_pos hp]
      exact List.Sublist.cons p (List.Sublist.refl t)
    · rw [aerase, if_neg hp]
      exact List.Sublist.cons₂ p ih

theorem mem_aerase {α : Type} {l : List (String × α)} {k : String}
    (hnd : (l.map Prod.fst).Nodup) (p : String × α) :
    p ∈ aerase l k ↔ p ∈ l ∧ p.1 ≠ k := by
  induction l with
  | nil => simp [aerase]
  | cons q t ih =>
    rw [List.map_cons, List.nodup_cons] at hnd
    by_cases hq : q.1 = k
    · rw [aerase, if_pos hq]
      constructor
      · intro hm
        refine ⟨List.mem_cons_of_mem _ hm, ?_⟩
        intro he
        exact hnd.1 (List.mem_map.mpr ⟨p, hm, by rw [he, hq]⟩)
      · rintro ⟨hm, hne⟩
        rcases List.mem_cons.mp hm with h1 | h1
        · exact absurd (by rw [h1, hq]) hne
        · exact h1
    · rw [aerase, if_neg hq]
      constructor
      · intro hm
        rcases List.mem_cons.mp hm with h1 | h1
        · constructor
          · rw [h1]
            exact List.mem_cons_self q t
          · rw [h1]
            exact hq
        · have h2 := (ih hnd.2).mp h1
          exact ⟨List.mem_cons_of_mem _ h2.1, h2.2⟩
      · rintro ⟨hm, hne⟩
        rcases List.mem_cons.mp hm with h1 | h1
        · rw [h1]
          exact List.mem_cons_self q (aerase t k)
        · exact List.mem_cons_of_mem _ ((ih hnd.2).mpr ⟨h1, hne⟩)

theorem alookup_aerase_self {α : Type} {l : List (String × α)} {k : String}
    (hnd : (l.map Prod.fst).Nodup) : alookup (aerase l k) k = none := by
  rw [alookup_eq_none_iff]
  intro hk
  rcases List.mem_map.mp hk with ⟨p, hp, he⟩
  have h2 := (mem_aerase hnd p).mp hp
  exact h2.2 he

theorem alookup_isSome_iff {α : Type} (l : List (String × α)) (k : String) :
    (alookup l k).isSome = true ↔ k ∈ l.map Prod.fst := by
  rcases h : alookup l k with _ | a
  · rw [alookup_eq_none_iff] at h
    simp [h]
  · have hm : k ∈ l.map Prod.fst := List.mem_map.mpr ⟨(k, a), mem_of_alookup_eq_some h, rfl⟩
    simp [hm]

theorem inj_of_nodup_map {α β : Type} {f : α → β} {l : List α}
    (h : (l.map f).Nodup) {x y : α} (hx : x ∈ l) (hy : y ∈ l) (he : f x = f y) :
    x = y := by
  induction l with
  | nil => simp at hx
  | cons a t ih =>
    rw [List.map_cons, List.nodup_cons] at h
    rcases List.mem_cons.mp hx with hx1 | hx1 <;> rcases List.mem_cons.mp hy with hy1 | hy1
    · exact hx1.trans hy1.symm
    · exact absurd (List.mem_map.mpr ⟨y, hy1, he.symm.trans (congrArg f hx1)⟩) h.1
    · exact absurd (List.mem_map.mpr ⟨x, hx1, he.trans (congrArg f hy1)⟩) h.1
    · exact ih h.2 hx1 hy1

theorem alookup_ne_of_nodup_snd {α : Type} {l : List (String × α)}
    (ha : (l.map Prod.snd).Nodup) {c c' : String} {a a' : α}
    (h1 : alookup l c = some a) (h2 : alookup l c' = some a') (hne : c ≠ c') :
    a ≠ a' := by
  intro he
  have m1 := mem_of_alookup_eq_some h1
  have m2 := mem_of_alookup_eq_some h2
  have := inj_of_nodup_map ha m1 m2 (by simpa using he)
  exact hne (congrArg Prod.fst this)

/-! ### The queue manager state

One frame per activated run loop: cid is the channel the loop was started
for, arr the array it captured, cur the job whose processJob call is
currently in flight. -/

structure Frame where
  cid : String
  arr : Nat
  cur : String
deriving DecidableEq, Repr

structure QM where
  heap : Nat → List String
  queues : List (String × Nat)
  running : List String
  frames : List Frame
  nextArr : Nat
  cancelled : List String
  enqueuedLog : List (String × String)
  completedLog : List (String × String)

def initQM : QM where
  heap := fun _ => []
  queues := []
  running := []
  frames := []
  nextArr := 0
  cancelled := []
  enqueuedLog := []
  completedLog := []

/-- Synchronous prefix of maybeStart (lines 134-141): bail out if the channel
is already marked running or its queue is missing or empty; otherwise mark it
running and begin a loop on the head job (the loop suspends inside processJob
of that head). -/
def maybeStartStep (s : QM) (cid : String) : QM :=
  if cid ∈ s.running then s
  else
    match alookup s.queues cid with
    | none => s
    | some a =>
      match (s.heap a).head? with
      | none => s
      | some h => { s with running := cid :: s.running, frames := s.frames ++ [⟨cid, a, h⟩] }

/-- enqueue (lines 79-85): push onto the existing array of the channel, or
create a fresh array holding just the job; then run maybeStart; return the
length of the array after the push. -/
def enqueueRet (s : QM) (cid j : String) : QM × Nat :=
  match alookup s.queues cid with
  | some a =>
    let s1 : QM := { s with heap := Function.update s.heap a (s.heap a ++ [j]),
                            enqueuedLog := s.enqueuedLog ++ [(cid, j)] }
    (maybeStartStep s1 cid, (s1.heap a).length)
  | none =>
    let s1 : QM := { s with heap := Function.update s.heap s.nextArr [j],
                            queues := s.queues ++ [(cid, s.nextArr)],
                            nextArr := s.nextArr + 1,
                            enqueuedLog := s.enqueuedLog ++ [(cid, j)] }
    (maybeStartStep s1 cid, (s1.heap s.nextArr).length)

/-- cancel (lines 107-118): no queue or empty queue or unknown id is a no-op
returning false; otherwise splice the job out at its first index, signal its
token, and drop the Map entry if the array became empty. -/
def cancelRet (s : QM) (cid j : String) : QM × Bool :=
  match alookup s.queues cid with
  | none => (s, false)
  | some a =>
    let q := s.heap a
    if q = [] then (s, false)
    else
      match q.findIdx? (fun x => x == j) with
      | none => (s, false)
      | some i =>
        let q' := q.eraseIdx i
        let s1 : QM := { s with heap := Function.update s.heap a q',
                                cancelled := s.cancelled ++ [j] }
        if q' = [] then ({ s1 with queues := aerase s1.queues cid }, true)
        else (s1, true)

/-- clear (lines 120-132): unknown channel returns 0; otherwise signal every
job of the array, delete the Map entry and the running mark, and return the
array length.  The array itself is not emptied: an active loop still holds
it. -/
def clearRet (s : QM) (cid : String) : QM × Nat :=
  match alookup s.queues cid with
  | none => (s, 0)
  | some a =>
    let q := s.heap a
    ({ s with cancelled := s.cancelled ++ q,
              queues := aerase s.queues cid,
              running := s.running.erase cid }, q.length)

/-- Resume of loop frame k (lines 140-153): when processJob of the frame's
current job settles, the finally block shifts the captured array, then the
while condition is retested: continue with the new head, or run the outer
finally (unmark running; delete the Map entry when the captured array is
empty). -/
def resumeStep (s : QM) (k : Nat) : QM :=
  match s.frames[k]? with
  | none => s
  | some f =>
    let q := s.heap f.arr
    let q' := q.tail
    let s1 : QM := { s with heap := Function.update s.heap f.arr q',
                            completedLog := s.completedLog ++ [(f.cid, f.cur)] }
    match q'.head? with
    | some h => { s1 with frames := s1.frames.set k { f with cur := h } }
    | none => { s1 with frames := s1.frames.eraseIdx k,
                        running := s1.running.erase f.cid,
                        queues := aerase s1.queues f.cid }

inductive Step
  | enq (cid j : String)
  | cancelS (cid j : String)
  | clearS (cid : String)
  | resume (k : Nat)
deriving DecidableEq, Repr

def applyStep (s : QM) : Step → QM
  | .enq c j => (enqueueRet s c j).1
  | .cancelS c j => (cancelRet s c j).1
  | .clearS c => (clearRet s c).1
  | .resume k => resumeStep s k

def runSteps (L : List Step) : QM := L.foldl applyStep initQM

/-! ### Observation functions -/

def queueOf (s : QM) (c : String) : List String :=
  match alookup s.queues c with
  | some a => s.heap a
  | none => []

def completedFor (s : QM) (c : String) : List String :=
  (s.completedLog.filter (fun p => p.1 == c)).map Prod.snd

def enqueuedFor (s : QM) (c : String) : List String :=
  (s.enqueuedLog.filter (fun p => p.1 == c)).map Prod.snd

def framesFor (s : QM) (c : String) : List Frame :=
  s.frames.filter (fun f => f.cid == c)

/-- The per-item derived state of getSummary (lines 97-101), written as an
index-carrying recursion over the queue: item i is running when i = 0 and the
channel is marked running, waiting otherwise. -/
def summaryItems (r : Bool) : Nat → List String → List (String × String)
  | _, [] => []
  | i, j :: t => (j, if i = 0 ∧ r = true then "running" else "waiting") :: summaryItems r (i + 1) t

structure SumEntry where
  running : Bool
  length : Nat
  items : List (String × String)
deriving DecidableEq, Repr

/-- getSummary (lines 87-105): one record per Map entry, in insertion order. -/
def getSummary (s : QM) : List (String × SumEntry) :=
  s.queues.map (fun p =>
    let q := s.heap p.2
    let r := decide (p.1 ∈ s.running)
    (p.1, ⟨r, q.length, summaryItems r 0 q⟩))

/-- Number of jobs getSummary reports as waiting for a channel (0 when the
channel has no entry). -/
def waitingCount (s : QM) (c : String) : Nat :=
  match alookup (getSummary s) c with
  | none => 0
  | some e => (e.items.filter (fun it => it.2 == "waiting")).length

/-! ### processJob (lines 156-251): submit, poll, deliver

The polling loop is a fuel-indexed function over an oracle environment: the
abort flag observed at the top of each iteration, the result and duration of
each backend status query, and whether the delivery send succeeds.  Time is
explicit: now is the clock value at the top of an iteration, startAt the
clock value captured at line 189 (after the submission call succeeded). -/

structure Cfg where
  endpoint : String
  queryInterval : Nat
  encrypt : Bool
  password : Option String
  timeout : Nat
deriving DecidableEq, Repr

structure BTask where
  task_id : String
  album_id : String
  status : String
  progress : Nat
  total_images : Nat
  stage : String
  download_url : String
  artifact_filename : String
  error : String
  password : String
deriving DecidableEq, Repr

inductive PollResp
  | ok (t : BTask)
  | fail (msg : String)
deriving DecidableEq, Repr

structure Env where
  aborted : Nat → Bool
  poll : Nat → PollResp
  pollDur : Nat → Nat
  sendOk : Bool
  deliverErr : String

inductive Outcome
  | submitFailed
  | cancelled
  | timedOut
  | backendFailed
  | done
deriving DecidableEq, Repr

inductive Act
  | post (text : String)
  | sendFile (url : String) (filename : Option String)
  | sendText (text : String)
  | recallLast
deriving DecidableEq, Repr

def formatErrText (s : String) : String := s

/-- Lines 244-247: the backend failure status message. -/
def failText (t : BTask) : String :=
  "任务失败：" ++ (if t.error = "" then "未知错误" else t.error)

/-- Lines 226-237: inside the delivery try block; a throwing send is reported
by the catch, with the raw download reference appended. -/
def deliverSend (cfg : Cfg) (env : Env) (t : BTask) : List Act :=
  if t.download_url ≠ "" then
    if env.sendOk then
      [.sendFile (cfg.endpoint ++ t.download_url)
        (if t.artifact_filename = "" then none else some t.artifact_filename)]
    else
      [.sendText ("发送文件失败：" ++ formatErrText env.deliverErr ++ " · 下载地址：" ++ t.download_url)]
  else
    if env.sendOk then
      [.sendText ("下载地址：" ++ t.download_url)]
    else
      [.sendText ("发送文件失败：" ++ formatErrText env.deliverErr ++ " · 下载地址：" ++ t.download_url)]

/-- Lines 223-241: the whole status-done branch, from the packing notice to
the final completion notice with the password or the explicit none marker. -/
def donePart (cfg : Cfg) (env : Env) (album : String) (t : BTask) : List Act :=
  .post "打包完成，开始发送文件..." :: deliverSend cfg env t
    ++ [.recallLast, .post ("完成 [" ++ album ++ "] | 密码：" ++ (if t.password = "" then "无" else t.password))]

/-- Lines 191-250: one polling loop.  Arguments after the environment: fuel,
the index of the next poll attempt, and the current clock value. -/
def pollLoop (cfg : Cfg) (env : Env) (album : String) (startAt : Nat) :
    Nat → Nat → Nat → Option (Outcome × List Act)
  | 0, _, _ => none
  | fuel + 1, n, now =>
    if env.aborted n then some (.cancelled, [.post "任务已取消"])
    else if cfg.timeout < now - startAt then some (.timedOut, [.post "任务超时"])
    else
      match env.poll n with
      | .fail _ =>
        (pollLoop cfg env album startAt fuel (n + 1) (now + env.pollDur n + cfg.queryInterval)).map
          (fun r => (r.1, .post "查询失败，重试中..." :: r.2))
      | .ok t =>
        if t.status = "done" then some (.done, donePart cfg env album t)
        else if t.status = "error" ∨ t.error ≠ "" then some (.backendFailed, [.post (failText t)])
        else pollLoop cfg env album startAt fuel (n + 1) (now + env.pollDur n + cfg.queryInterval)

/-- Submission oracle: result none models a throwing POST; dur is the time
from job start until the clock is read at line 189. -/
structure SubmitEnv where
  result : Option BTask
  errMsg : String
  dur : Nat

/-- Lines 156-251: processJob end to end.  The initial status post, the
submission attempt (terminal on failure, no retry), the created notice, then
the polling loop started with startAt = the clock after submission. -/
def processJobC (cfg : Cfg) (env : Env) (senv : SubmitEnv) (album : String) (fuel : Nat) :
    Option (Outcome × List Act) :=
  match senv.result with
  | none =>
    some (.submitFailed,
      [.post ("开始下载 [" ++ album ++ "]，正在创建任务..."),
       .post ("创建任务失败：" ++ formatErrText senv.errMsg)])
  | some created =>
    (pollLoop cfg env album senv.dur fuel 0 senv.dur).map
      (fun r => (r.1,
        .post ("开始下载 [" ++ album ++ "]，正在创建任务...")
          :: .post ("任务已创建：" ++ created.task_id ++ "，开始下载（共"
              ++ (if created.total_images = 0 then "?" else toString created.total_images) ++ "张）")
          :: r.2))

/-- A backend task record that the polling loop treats as still in progress:
not done, not in the error state, empty error field. -/
def nonTerminalB : PollResp → Bool
  | .fail _ => true
  | .ok t => ¬ (t.status = "done") ∧ ¬ (t.status = "error") ∧ t.error = ""

/-! ### Status message lifecycle (lines 253-272, 286-292)

statusMsg can hold one send result, itself one or several message ids
(safeSend returning undefined is modelled by none).  The chat state tracks
which posted message ids are still visible; deleteMessage may fail, and
recallStatus swallows such failures but clears the reference regardless. -/

structure Chat where
  statusMsg : Option (List Nat)
  live : List Nat
deriving DecidableEq, Repr

def initChat : Chat where
  statusMsg := none
  live := []

inductive MAct
  | del (id : Nat)
  | post (text : String)
deriving DecidableEq, Repr

/-- The delete calls recallStatus issues for the current reference (one per
id of an array reference, one for a single id, none when the reference is
already clear). -/
def recallActs : Option (List Nat) → List MAct
  | none => []
  | some ids => ids.map MAct.del

/-- Effect of the recall deletes on the visible messages: a delete that the
transport accepts removes the message; a failing delete (delOk = false)
leaves it, and the error is swallowed. -/
def recallLive (delOk : Bool) (ids : Option (List Nat)) (live : List Nat) : List Nat :=
  match ids with
  | none => live
  | some l => if delOk then live.filter (fun m => decide (m ∉ l)) else live

/-- recallStatus (lines 259-272): best-effort deletes, then the reference is
unconditionally cleared. -/
def recallStatusM (delOk : Bool) (c : Chat) : Chat × List MAct :=
  ({ statusMsg := none, live := recallLive delOk c.statusMsg c.live }, recallActs c.statusMsg)

/-- updateStatus (lines 253-257): recall the previous status message, then
post the new text; the reference becomes whatever safeSend returned. -/
def updateStatusM (delOk : Bool) (sendRes : Option (List Nat)) (text : String) (c : Chat) :
    Chat × List MAct :=
  let r := recallStatusM delOk c
  ({ statusMsg := sendRes, live := r.1.live ++ (match sendRes with | none => [] | some l => l) },
   r.2 ++ [.post text])

inductive MOp
  | upd (text : String) (sendRes : Option (List Nat))
  | recall
deriving DecidableEq, Repr

def mstep (delOk : Bool) (c : Chat) : MOp → Chat × List MAct
  | .upd text sendRes => updateStatusM delOk sendRes text c
  | .recall => recallStatusM delOk c

def mrun (delOk : Bool) (ops : List MOp) : Chat :=
  ops.foldl (fun c op => (mstep delOk c op).1) initChat

/-! ### Small facts about the model -/

theorem maybeStartStep_queues (s : QM) (c : String) : (maybeStartStep s c).queues = s.queues := by
  rw [maybeStartStep]
  split
  · rfl
  · split
    · rfl
    · split <;> rfl

theorem maybeStartStep_heap (s : QM) (c : String) : (maybeStartStep s c).heap = s.heap := by
  rw [maybeStartStep]
  split
  · rfl
  · split
    · rfl
    · split <;> rfl

theorem maybeStartStep_frames_of_running (s : QM) (c : String) (h : c ∈ s.running) :
    maybeStartStep s c = s := by
  rw [maybeStartStep, if_pos h]

theorem findIdx?_eq_none_of_forall {α : Type} {p : α → Bool} {l : List α}
    (h : ∀ x ∈ l, p x = false) : ∀ i, l.findIdx? p i = none := by
  induction l with
  | nil => intro i; rfl
  | cons x t ih =>
    intro i
    rw [List.findIdx?_cons, if_neg ?_]
    · exact ih (fun y hy => h y (List.mem_cons_of_mem x hy)) (i + 1)
    · rw [h x (List.mem_cons_self x t)]
      exact Bool.false_ne_true

theorem findIdx?_ne_nil {α : Type} {p : α → Bool} {l : List α} {i : Nat}
    (h : l.findIdx? p = some i) : l ≠ [] := by
  intro he
  rw [he] at h
  exact Option.noConfusion h

/-- Index-shift lemmas for the summary item states. -/
theorem summaryItems_waiting_of_false (l : List String) :
    ∀ i, ((summaryItems false i l).filter (fun it => it.2 == "waiting")).length = l.length := by
  induction l with
  | nil => intro i; rfl
  | cons j t ih =>
    intro i
    rw [summaryItems]
    have hcond : ¬ (i = 0 ∧ false = true) := by simp
    rw [if_neg hcond]
    simp only [List.filter_cons]
    have : (("waiting" : String) == "waiting") = true := by decide
    simp only [this]
    rw [if_pos trivial]
    simp only [List.length_cons]
    rw [ih (i + 1)]

theorem summaryItems_waiting_of_pos (l : List String) :
    ∀ i, i ≠ 0 → ((summaryItems true i l).filter (fun it => it.2 == "waiting")).length = l.length := by
  induction l with
  | nil => intro i _; rfl
  | cons j t ih =>
    intro i hi
    rw [summaryItems]
    have hcond : ¬ (i = 0 ∧ true = true) := by simp [hi]
    rw [if_neg hcond]
    simp only [List.filter_cons]
    have : (("waiting" : String) == "waiting") = true := by decide
    simp only [this]
    rw [if_pos trivial]
    simp only [List.length_cons]
    rw [ih (i + 1) (Nat.succ_ne_zero i)]

theorem alookup_map_pair {α β : Type} (l : List (String × α)) (g : String → α → β) (k : String) :
    alookup (l.map (fun p => (p.1, g p.1 p.2))) k = Option.map (g k) (alookup l k) := by
  induction l with
  | nil => rfl
  | cons p t ih =>
    by_cases hp : p.1 = k
    · rw [List.map_cons, alookup, alookup]
      simp only [hp, if_pos rfl]
      rfl
    · rw [List.map_cons, alookup, alookup, if_neg hp, if_neg hp]
      exact ih

theorem alookup_getSummary (s : QM) (c : String) :
    alookup (getSummary s) c
      = Option.map (fun a =>
          (⟨decide (c ∈ s.running), (s.heap a).length,
            summaryItems (decide (c ∈ s.running)) 0 (s.heap a)⟩ : SumEntry))
          (alookup s.queues c) := by
  have h := alookup_map_pair s.queues
    (fun c1 a => (⟨decide (c1 ∈ s.running), (s.heap a).length,
      summaryItems (decide (c1 ∈ s.running)) 0 (s.heap a)⟩ : SumEntry)) c
  exact h

theorem waitingCount_of_none (s : QM) (c : String) (h : alookup s.queues c = none) :
    waitingCount s c = 0 := by
  rw [waitingCount, alookup_getSummary, h]
  rfl

theorem waitingCount_of_not_running (s : QM) (c : String) (a : Nat)
    (h : alookup s.queues c = some a) (hr : c ∉ s.running) :
    waitingCount s c = (s.heap a).length := by
  rw [waitingCount, alookup_getSummary, h]
  show ((summaryItems (decide (c ∈ s.running)) 0 (s.heap a)).filter
    (fun it => it.2 == "waiting")).length = (s.heap a).length
  have hd : decide (c ∈ s.running) = false := by simp [hr]
  rw [hd]
  exact summaryItems_waiting_of_false (s.heap a) 0

theorem waitingCount_of_running (s : QM) (c : String) (a : Nat) (x : String) (t : List String)
    (h : alookup s.queues c = some a) (hr : c ∈ s.running) (hq : s.heap a = x :: t) :
    waitingCount s c = t.length := by
  rw [waitingCount, alookup_getSummary, h]
  show ((summaryItems (decide (c ∈ s.running)) 0 (s.heap a)).filter
    (fun it => it.2 == "waiting")).length = t.length
  have hd : decide (c ∈ s.running) = true := by simp [hr]
  rw [hd, hq, summaryItems]
  have hcond : (0 = 0 ∧ true = true) := ⟨rfl, rfl⟩
  rw [if_pos hcond]
  simp only [List.filter_cons]
  have : (("running" : String) == "waiting") = false := by decide
  simp only [this]
  exact summaryItems_waiting_of_pos t 1 (Nat.succ_ne_zero 0)

/-! ### Claim C5: enqueue position -/

/-- C5 (amended): enqueue appends the job to the tail of its channel queue
(creating the queue if absent) and returns the 1-based position the job
occupies at enqueue time, i.e. the previous queue length plus one.  An idle
channel yields 1, a channel with no running mark yields the waiting count
plus one, and an active channel (whose running head is still in the queue)
yields the waiting count plus two. -/
theorem enqueue_position_spec (s : QM) (c j : String) :
    (enqueueRet s c j).2 = (queueOf s c).length + 1
    ∧ queueOf (enqueueRet s c j).1 c = queueOf s c ++ [j]
    ∧ (queueOf s c = [] → (enqueueRet s c j).2 = 1)
    ∧ (c ∉ s.running → (enqueueRet s c j).2 = waitingCount s c + 1)
    ∧ (c ∈ s.running → queueOf s c ≠ [] → (enqueueRet s c j).2 = waitingCount s c + 2) := by
  rcases h : alookup s.queues c with _ | a
  · have hq : queueOf s c = [] := by rw [queueOf, h]
    simp only [enqueueRet, h]
    refine ⟨?_, ?_, ?_, ?_, ?_⟩
    · rw [hq, Function.update_same]
      rfl
    · rw [queueOf, maybeStartStep_queues, maybeStartStep_heap]
      have hlook : alookup (s.queues ++ [(c, s.nextArr)]) c = some s.nextArr := by
        rw [alookup_append_of_none _ h, alookup, if_pos rfl]
      rw [hlook]
      show Function.update s.heap s.nextArr [j] s.nextArr = queueOf s c ++ [j]
      rw [Function.update_same, hq]
      rfl
    · intro _
      rw [Function.update_same]
      rfl
    · intro _
      rw [waitingCount_of_none s c h, Function.update_same]
      rfl
    · intro _ hne
      exact absurd hq hne
  · have hq : queueOf s c = s.heap a := by rw [queueOf, h]
    simp only [enqueueRet, h]
    refine ⟨?_, ?_, ?_, ?_, ?_⟩
    · rw [hq, Function.update_same, List.length_append]
      rfl
    · rw [queueOf, maybeStartStep_queues, maybeStartStep_heap, h]
      show Function.update s.heap a (s.heap a ++ [j]) a = queueOf s c ++ [j]
      rw [Function.update_same, hq]
    · intro hmt
      rw [Function.update_same, List.length_append]
      rw [hq] at hmt
      rw [hmt]
      rfl
    · intro hr
      rw [Function.update_same, List.length_append, waitingCount_of_not_running s c a h hr]
      rfl
    · intro hr hne
      rw [hq] at hne
      rcases he : s.heap a with _ | ⟨x, t⟩
      · exact absurd he hne
      · rw [Function.update_same]
        rw [waitingCount_of_running s c a x t h hr he]
        simp

def c5base : QM := runSteps [.enq "c" "J1"]

/-- C5 (counterexample): in a channel whose run loop is active and whose
queue holds just the running head, getSummary reports zero waiting jobs, yet
enqueue returns 2, not the k + 1 = 1 the claim asks for: the running head
still occupies the queue and is counted by the returned length. -/
theorem enqueue_position_cx :
    waitingCount c5base "c" = 0
    ∧ "c" ∈ c5base.running
    ∧ (enqueueRet c5base "c" "J2").2 = 2 := by
  refine ⟨by decide, by decide, by decide⟩

/-- C5 (witness): the amended statement applied to the same one-job active
channel: the enqueue returns waiting count plus two. -/
theorem enqueue_position_witness :
    queueOf c5base "c" ≠ []
    ∧ (enqueueRet c5base "c" "J2").2 = waitingCount c5base "c" + 2 :=
  ⟨by decide, (enqueue_position_spec c5base "c" "J2").2.2.2.2 (by decide) (by decide)⟩

/-! ### Claim C6: cancel -/

/-- C6: cancel returns false and leaves the whole state untouched when the
channel is unknown, the channel queue is empty, or the job id is not in the
queue; when the job is found at index i it is spliced out of the array
immediately, its cancellation token is signalled, and cancel returns true. -/
theorem cancel_spec :
    (∀ (s : QM) (c j : String), alookup s.queues c = none → cancelRet s c j = (s, false))
    ∧ (∀ (s : QM) (c j : String) (a : Nat), alookup s.queues c = some a → s.heap a = [] →
        cancelRet s c j = (s, false))
    ∧ (∀ (s : QM) (c j : String) (a : Nat), alookup s.queues c = some a → j ∉ s.heap a →
        cancelRet s c j = (s, false))
    ∧ (∀ (s : QM) (c j : String) (a i : Nat), alookup s.queues c = some a →
        (s.heap a).findIdx? (fun x => x == j) = some i →
        (cancelRet s c j).2 = true
        ∧ (cancelRet s c j).1.heap a = (s.heap a).eraseIdx i
        ∧ j ∈ (cancelRet s c j).1.cancelled
        ∧ (cancelRet s c j).1.frames = s.frames
        ∧ (cancelRet s c j).1.running = s.running) := by
  refine ⟨?_, ?_, ?_, ?_⟩
  · intro s c j h
    simp only [cancelRet, h]
  · intro s c j a h hq
    simp [cancelRet, h, hq]
  · intro s c j a h hnm
    have hidx : ∀ i0, (s.heap a).findIdx? (fun x => x == j) i0 = none :=
      findIdx?_eq_none_of_forall (fun x hx => by
        have hne : x ≠ j := fun he => hnm (he ▸ hx)
        simp [hne])
    by_cases hq2 : s.heap a = [] <;> simp [cancelRet, h, hq2, hidx 0]
  · intro s c j a i h hi
    have hne : s.heap a ≠ [] := findIdx?_ne_nil hi
    by_cases hq2 : (s.heap a).eraseIdx i = [] <;>
      simp [cancelRet, h, hne, hi, hq2, Function.update_same]

def c6base : QM := runSteps [.enq "c" "J1", .enq "c" "J2"]

/-- C6 (witness): on a channel holding the running J1 and the waiting J2,
cancelling an unknown id is a no-op returning false, and cancelling J2
returns true, splices it out at index 1, and signals its token. -/
theorem cancel_spec_witness :
    cancelRet c6base "c" "zz" = (c6base, false)
    ∧ (cancelRet c6base "c" "J2").2 = true
    ∧ (cancelRet c6base "c" "J2").1.heap 0 = (c6base.heap 0).eraseIdx 1
    ∧ "J2" ∈ (cancelRet c6base "c" "J2").1.cancelled :=
  ⟨cancel_spec.2.2.1 c6base "c" "zz" 0 (by decide) (by decide),
   (cancel_spec.2.2.2 c6base "c" "J2" 0 1 (by decide) (by decide)).1,
   (cancel_spec.2.2.2 c6base "c" "J2" 0 1 (by decide) (by decide)).2.1,
   (cancel_spec.2.2.2 c6base "c" "J2" 0 1 (by decide) (by decide)).2.2.1⟩

/-! ### Claim C2: what the end of a run-loop iteration removes -/

theorem head?_cons_tail {α : Type} {l : List α} {x : α} (h : l.head? = some x) :
    l = x :: l.tail := by
  cases l with
  | nil => exact absurd h (by simp)
  | cons a t =>
    simp at h
    rw [h]
    rfl

theorem cancelRet_found_ne (s : QM) (c j : String) (a i : Nat)
    (h : alookup s.queues c = some a)
    (hi : (s.heap a).findIdx? (fun x => x == j) = some i)
    (hq2 : (s.heap a).eraseIdx i ≠ []) :
    cancelRet s c j
      = ({ s with heap := Function.update s.heap a ((s.heap a).eraseIdx i),
                  cancelled := s.cancelled ++ [j] }, true) := by
  have hne : s.heap a ≠ [] := findIdx?_ne_nil hi
  simp only [cancelRet, h, if_neg hne, hi, if_neg hq2]

/-- C2 (amended): at the end of a run-loop iteration the current head of the
captured array is removed; that head is the job the iteration executed
whenever the executed job is still at the head when processJob settles (in
particular when no cancel or clear removed it mid-iteration).  Cancelling a
job that is not at the head (queued but not running) removes exactly that
job, keeps the head and the relative order of all remaining jobs, and leaves
every loop frame untouched. -/
theorem runloop_shift_spec :
    (∀ (s : QM) (k : Nat) (f : Frame), s.frames[k]? = some f →
        (s.heap f.arr).head? = some f.cur →
        s.heap f.arr = f.cur :: (resumeStep s k).heap f.arr
        ∧ (resumeStep s k).completedLog = s.completedLog ++ [(f.cid, f.cur)])
    ∧ (∀ (s : QM) (c j : String) (a i : Nat),
        alookup s.queues c = some a →
        (s.heap a).findIdx? (fun x => x == j) = some i →
        (s.heap a).head? ≠ some j →
        (cancelRet s c j).2 = true
        ∧ (cancelRet s c j).1.frames = s.frames
        ∧ queueOf (cancelRet s c j).1 c = (s.heap a).eraseIdx i
        ∧ (queueOf (cancelRet s c j).1 c).head? = (s.heap a).head?
        ∧ ((s.heap a).eraseIdx i).Sublist (s.heap a)) := by
  constructor
  · intro s k f hk hhead
    have hq : s.heap f.arr = f.cur :: (s.heap f.arr).tail := head?_cons_tail hhead
    have hheap : (resumeStep s k).heap f.arr = (s.heap f.arr).tail := by
      simp only [resumeStep, hk]
      split <;> simp only [Function.update_same]
    have hlog : (resumeStep s k).completedLog = s.completedLog ++ [(f.cid, f.cur)] := by
      simp only [resumeStep, hk]
      split <;> rfl
    constructor
    · rw [hheap]
      exact hq
    · exact hlog
  · intro s c j a i h hi hhead
    rcases hq : s.heap a with _ | ⟨x, t⟩
    · rw [hq] at hi
      exact absurd hi (by simp)
    · have hxj : (x == j) = false := by
        have hne1 : x ≠ j := by
          intro he
          apply hhead
          rw [hq, he]
          rfl
        simp [hne1]
      have hsucc : List.findIdx? (fun y => y == j) t (0 + 1)
          = (List.findIdx? (fun y => y == j) t 0).map (fun i2 => i2 + 1) :=
        List.findIdx?_succ
      rw [hq, List.findIdx?_cons, if_neg (by simp [hxj]), hsucc] at hi
      rcases Option.map_eq_some'.mp hi with ⟨i0, hi0, hieq⟩
      have hie : i = i0 + 1 := hieq.symm
      have herase : (s.heap a).eraseIdx i = x :: t.eraseIdx i0 := by
        rw [hq, hie]
        rfl
      have hq2 : (s.heap a).eraseIdx i ≠ [] := by
        rw [herase]
        exact List.cons_ne_nil x _
      have hifull : (s.heap a).findIdx? (fun y => y == j) = some i := by
        rw [hq, List.findIdx?_cons, if_neg (by simp [hxj]), hsucc, hi0, hie]
        rfl
      have hchar := cancelRet_found_ne s c j a i h hifull hq2
      have hqof : queueOf (cancelRet s c j).1 c = (s.heap a).eraseIdx i := by
        rw [hchar, queueOf]
        show (match alookup s.queues c with
          | some a1 => Function.update s.heap a ((s.heap a).eraseIdx i) a1
          | none => ([] : List String)) = (s.heap a).eraseIdx i
        rw [h]
        show Function.update s.heap a ((s.heap a).eraseIdx i) a = (s.heap a).eraseIdx i
        rw [Function.update_same]
      refine ⟨?_, ?_, ?_, ?_, ?_⟩
      · rw [hchar]
      · rw [hchar]
      · rw [← hq]
        exact hqof
      · rw [hqof, herase]
        rfl
      · exact List.eraseIdx_sublist _ i

def c2base : QM := (cancelRet (runSteps [.enq "c" "J1", .enq "c" "J2"]) "c" "J1").1

/-- C2 (counterexample): the loop is executing J1 when cancel removes J1 from
the queue; at the end of the iteration the unconditional shift removes J2,
not the executed J1, so the waiting J2 leaves the queue without ever being
executed (it is in no queue, not in the completed log, and was never
signalled by cancel or clear). -/
theorem runloop_shift_cx :
    c2base.frames = [⟨"c", 0, "J1"⟩]
    ∧ c2base.heap 0 = ["J2"]
    ∧ (resumeStep c2base 0).heap 0 = []
    ∧ (resumeStep c2base 0).completedLog = [("c", "J1")]
    ∧ "J2" ∉ (resumeStep c2base 0).cancelled
    ∧ queueOf (resumeStep c2base 0) "c" = [] := by
  refine ⟨by decide, by decide, by decide, by decide, by decide, by decide⟩

def c2wbase : QM := runSteps [.enq "d" "K1", .enq "d" "K2", .enq "d" "K3"]

/-- C2 (witness): with the head stable, the resume removes exactly the
executed job K1; cancelling the waiting K3 returns true, keeps the frame and
the head, and leaves K1 and K2 in order. -/
theorem runloop_shift_witness :
    c2wbase.heap 0 = "K1" :: (resumeStep c2wbase 0).heap 0
    ∧ (resumeStep c2wbase 0).completedLog = c2wbase.completedLog ++ [("d", "K1")]
    ∧ (cancelRet c2wbase "d" "K3").2 = true
    ∧ (cancelRet c2wbase "d" "K3").1.frames = c2wbase.frames
    ∧ queueOf (cancelRet c2wbase "d" "K3").1 "d" = (c2wbase.heap 0).eraseIdx 2
    ∧ (queueOf (cancelRet c2wbase "d" "K3").1 "d").head? = (c2wbase.heap 0).head? :=
  ⟨(runloop_shift_spec.1 c2wbase 0 ⟨"d", 0, "K1"⟩ (by decide) (by decide)).1,
   (runloop_shift_spec.1 c2wbase 0 ⟨"d", 0, "K1"⟩ (by decide) (by decide)).2,
   (runloop_shift_spec.2 c2wbase "d" "K3" 0 2 (by decide) (by decide) (by decide)).1,
   (runloop_shift_spec.2 c2wbase "d" "K3" 0 2 (by decide) (by decide) (by decide)).2.1,
   (runloop_shift_spec.2 c2wbase "d" "K3" 0 2 (by decide) (by decide) (by decide)).2.2.1,
   (runloop_shift_spec.2 c2wbase "d" "K3" 0 2 (by decide) (by decide) (by decide)).2.2.2.1⟩

/-! ### Claim C3: clear and the stale loop -/

def c3base : QM := runSteps [.enq "c" "J1", .enq "c" "J2"]

def c3after : QM × Nat := clearRet c3base "c"

/-- C3: clear on a channel holding two jobs returns 2, signals both
cancellation tokens, removes the channel from the summary, unmarks it as
running, and clear on an unknown channel returns 0 — but the already-active
run loop still holds the old array, and its next resume is a further
run-loop iteration for the channel: the loop goes on to execute J2 (the
claim says no further iterations occur). -/
theorem clear_stale_loop_bug :
    c3after.2 = 2
    ∧ c3after.1.cancelled = ["J1", "J2"]
    ∧ alookup (getSummary c3after.1) "c" = none
    ∧ "c" ∉ c3after.1.running
    ∧ (clearRet c3base "unknown").2 = 0
    ∧ c3after.1.frames = [⟨"c", 0, "J1"⟩]
    ∧ (resumeStep c3after.1 0).frames = [⟨"c", 0, "J2"⟩]
    ∧ (resumeStep c3after.1 0).completedLog = [("c", "J1")] := by
  refine ⟨by decide, by decide, by decide, by decide, by decide, by decide, by decide, by decide⟩

/-! ### Claims C4, C7, C8: the polling loop -/

theorem pollLoop_succ (cfg : Cfg) (env : Env) (album : String) (startAt fuel n now : Nat) :
    pollLoop cfg env album startAt (fuel + 1) n now
      = if env.aborted n = true then some (.cancelled, [.post "任务已取消"])
        else if cfg.timeout < now - startAt then some (.timedOut, [.post "任务超时"])
        else
          match env.poll n with
          | .fail _ =>
            (pollLoop cfg env album startAt fuel (n + 1) (now + env.pollDur n + cfg.queryInterval)).map
              (fun r => (r.1, .post "查询失败，重试中..." :: r.2))
          | .ok t =>
            if t.status = "done" then some (.done, donePart cfg env album t)
            else if t.status = "error" ∨ t.error ≠ "" then some (.backendFailed, [.post (failText t)])
            else pollLoop cfg env album startAt fuel (n + 1) (now + env.pollDur n + cfg.queryInterval) := rfl

theorem pollLoop_ne_done (cfg : Cfg) (env : Env) (album : String) (startAt : Nat)
    (h1 : ∀ n, env.aborted n = false)
    (h2 : ∀ n, nonTerminalB (env.poll n) = true) :
    ∀ (fuel n now : Nat) (tr : List Act),
      pollLoop cfg env album startAt fuel n now ≠ some (Outcome.done, tr) := by
  intro fuel
  induction fuel with
  | zero =>
    intro n now tr
    simp [pollLoop]
  | succ f ih =>
    intro n now tr hcon
    rw [pollLoop_succ, if_neg (by simp [h1 n])] at hcon
    by_cases hcond : cfg.timeout < now - startAt
    · rw [if_pos hcond] at hcon
      simp at hcon
    · rw [if_neg hcond] at hcon
      rcases hp : env.poll n with t | m
      · have hnt := h2 n
        rw [hp] at hnt
        simp [nonTerminalB] at hnt
        simp only [hp] at hcon
        rw [if_neg hnt.1, if_neg (by simp [hnt.2.1, hnt.2.2])] at hcon
        exact ih (n + 1) (now + env.pollDur n + cfg.queryInterval) tr hcon
      · simp only [hp] at hcon
        rcases Option.map_eq_some'.mp hcon with ⟨r, hrec, heq⟩
        rcases r with ⟨o, tr2⟩
        have ho : o = Outcome.done := by
          have h5 := congrArg Prod.fst heq
          simpa using h5
        rw [ho] at hrec
        exact ih (n + 1) (now + env.pollDur n + cfg.queryInterval) tr2 hrec
  
theorem pollLoop_timeout_reach (cfg : Cfg) (env : Env) (album : String) (startAt : Nat)
    (h1 : ∀ n, env.aborted n = false)
    (h2 : ∀ n, nonTerminalB (env.poll n) = true)
    (h3 : 1 ≤ cfg.queryInterval) :
    ∀ (k n now : Nat), startAt + cfg.timeout < now + k →
      ∃ pre, pollLoop cfg env album startAt (k + 1) n now
        = some (Outcome.timedOut, pre ++ [Act.post "任务超时"]) := by
  intro k
  induction k with
  | zero =>
    intro n now hlt
    refine ⟨[], ?_⟩
    rw [pollLoop_succ, if_neg (by simp [h1 n]), if_pos (by omega)]
    rfl
  | succ k ih =>
    intro n now hlt
    by_cases hcond : cfg.timeout < now - startAt
    · refine ⟨[], ?_⟩
      rw [pollLoop_succ, if_neg (by simp [h1 n]), if_pos hcond]
      rfl
    · rcases hp : env.poll n with t | m
      · have hnt := h2 n
        rw [hp] at hnt
        simp [nonTerminalB] at hnt
        rcases ih (n + 1) (now + env.pollDur n + cfg.queryInterval) (by omega) with ⟨pre, hpre⟩
        refine ⟨pre, ?_⟩
        rw [pollLoop_succ, if_neg (by simp [h1 n]), if_neg hcond]
        simp only [hp]
        rw [if_neg hnt.1, if_neg (by simp [hnt.2.1, hnt.2.2])]
        exact hpre
      · rcases ih (n + 1) (now + env.pollDur n + cfg.queryInterval) (by omega) with ⟨pre, hpre⟩
        refine ⟨Act.post "查询失败，重试中..." :: pre, ?_⟩
        rw [pollLoop_succ, if_neg (by simp [h1 n]), if_neg hcond]
        simp only [hp, hpre]
        rfl

/-- C4 (amended): the timeout budget is measured from the instant the clock
is read after the submission call succeeds (startAt), enforced at each
polling iteration: whenever the clock exceeds startAt by more than the
timeout, the loop posts the timed-out notice and stops immediately; when
every poll yields a non-terminal answer and the job is never aborted, the
loop reaches the timed-out state within timeout + 2 iterations and never
reaches the delivery branch. -/
theorem timeout_spec (cfg : Cfg) (env : Env) (album : String) (startAt : Nat)
    (h1 : ∀ n, env.aborted n = false)
    (h2 : ∀ n, nonTerminalB (env.poll n) = true)
    (h3 : 1 ≤ cfg.queryInterval) :
    (∀ (fuel n now : Nat), cfg.timeout < now - startAt →
        pollLoop cfg env album startAt (fuel + 1) n now
          = some (Outcome.timedOut, [Act.post "任务超时"]))
    ∧ (∃ pre, pollLoop cfg env album startAt (cfg.timeout + 2) 0 startAt
        = some (Outcome.timedOut, pre ++ [Act.post "任务超时"]))
    ∧ (∀ (fuel n now : Nat) (tr : List Act),
        pollLoop cfg env album startAt fuel n now ≠ some (Outcome.done, tr)) := by
  refine ⟨?_, ?_, pollLoop_ne_done cfg env album startAt h1 h2⟩
  · intro fuel n now hcond
    rw [pollLoop_succ, if_neg (by simp [h1 n]), if_pos hcond]
  · have h := pollLoop_timeout_reach cfg env album startAt h1 h2 h3 (cfg.timeout + 1) 0 startAt
      (by omega)
    exact h

def c4wcfg : Cfg :=
  { endpoint := "http://127.0.0.1:7210", queryInterval := 1, encrypt := true,
    password := none, timeout := 3 }

def c4wenv : Env :=
  { aborted := fun _ => false, poll := fun _ => .fail "ECONNREFUSED",
    pollDur := fun _ => 0, sendOk := true, deliverErr := "" }

/-- C4 (witness): the amended statement applied to a configuration with
timeout 3 and an environment whose polls always fail. -/
theorem timeout_spec_witness :
    (∃ pre, pollLoop c4wcfg c4wenv "9" 0 (c4wcfg.timeout + 2) 0 0
        = some (Outcome.timedOut, pre ++ [Act.post "任务超时"]))
    ∧ (∀ (fuel n now : Nat) (tr : List Act),
        pollLoop c4wcfg c4wenv "9" 0 fuel n now ≠ some (Outcome.done, tr)) :=
  ⟨(timeout_spec c4wcfg c4wenv "9" 0 (fun _ => rfl) (fun _ => rfl) (by decide)).2.1,
   (timeout_spec c4wcfg c4wenv "9" 0 (fun _ => rfl) (fun _ => rfl) (by decide)).2.2⟩

def c4cfg : Cfg :=
  { endpoint := "http://127.0.0.1:7210", queryInterval := 500, encrypt := true,
    password := none, timeout := 10 }

def c4task : BTask :=
  { task_id := "T1", album_id := "12345", status := "done", progress := 1,
    total_images := 1, stage := "", download_url := "/files/a.zip",
    artifact_filename := "a.zip", error := "", password := "abcd" }

def c4env : Env :=
  { aborted := fun _ => false, poll := fun _ => .ok c4task,
    pollDur := fun _ => 0, sendOk := true, deliverErr := "" }

def c4senv : SubmitEnv := { result := some c4task, errMsg := "", dur := 100 }

/-- C4 (counterexample): the submission takes 100 time units against a
configured timeout of 10, so at the first polling iteration the elapsed time
since job start already exceeds the timeout; the claim requires the job to
transition to the timed-out state without ever reaching delivery, but the
code reads its start-of-budget clock only after the submission succeeded and
completes the job. -/
theorem timeout_from_start_cx :
    c4cfg.timeout < c4senv.dur
    ∧ (processJobC c4cfg c4env c4senv "12345" 3).map Prod.fst = some Outcome.done := by
  refine ⟨by decide, by decide⟩

/-- C7: a failing backend status query is transient: within the timeout
budget and absent cancellation, the iteration posts the retrying notice,
waits one poll interval, and the outcome of the job is exactly whatever the
continued loop produces (a query failure by itself terminates nothing); in
particular a job whose first poll fails and whose second poll reports done
completes, with the retrying notice in its trace. -/
theorem poll_failure_transient_spec :
    (∀ (cfg : Cfg) (env : Env) (album : String) (startAt fuel n now : Nat) (msg : String),
        env.aborted n = false →
        now - startAt ≤ cfg.timeout →
        env.poll n = .fail msg →
        pollLoop cfg env album startAt (fuel + 1) n now
          = (pollLoop cfg env album startAt fuel (n + 1)
              (now + env.pollDur n + cfg.queryInterval)).map
              (fun r => (r.1, .post "查询失败，重试中..." :: r.2)))
    ∧ (∀ (cfg : Cfg) (env : Env) (album : String) (startAt fuel n now : Nat) (msg : String)
        (t : BTask),
        env.aborted n = false →
        env.aborted (n + 1) = false →
        now - startAt ≤ cfg.timeout →
        (now + env.pollDur n + cfg.queryInterval) - startAt ≤ cfg.timeout →
        env.poll n = .fail msg →
        env.poll (n + 1) = .ok t →
        t.status = "done" →
        pollLoop cfg env album startAt (fuel + 2) n now
          = some (.done, .post "查询失败，重试中..." :: donePart cfg env album t)) := by
  constructor
  · intro cfg env album startAt fuel n now msg hab htime hp
    rw [pollLoop_succ, if_neg (by simp [hab]), if_neg (by omega)]
    simp only [hp]
  · intro cfg env album startAt fuel n now msg t hab hab2 htime htime2 hp hp2 hdone
    rw [pollLoop_succ, if_neg (by simp [hab]), if_neg (by omega)]
    simp only [hp]
    rw [pollLoop_succ, if_neg (by simp [hab2]), if_neg (by omega)]
    simp only [hp2]
    rw [if_pos hdone]
    rfl

def c7env : Env :=
  { aborted := fun _ => false,
    poll := fun n => if n = 0 then .fail "ETIMEDOUT" else .ok c4task,
    pollDur := fun _ => 0, sendOk := true, deliverErr := "" }

/-- C7 (witness): with timeout 3 and interval 1, a first failing poll
followed by a successful done poll yields completion with the retrying
notice prepended to the trace. -/
theorem poll_failure_transient_witness :
    pollLoop c4wcfg c7env "12345" 0 2 0 0
      = some (.done, .post "查询失败，重试中..." :: donePart c4wcfg c7env "12345" c4task) :=
  poll_failure_transient_spec.2 c4wcfg c7env "12345" 0 0 0 0 "ETIMEDOUT" c4task
    rfl rfl (by decide) (by decide) rfl rfl rfl

/-- C8: when the backend reports done, the loop enters the delivery branch
and the outcome is done regardless of delivery success; a non-empty download
reference is sent as a file attachment at the endpoint-resolved address with
the reported filename when known, an empty reference is sent as raw text, a
throwing send is reported as a failure chat message (the job still ends
done), and after delivery the trace ends with the recall of the status
message followed by the completion notice carrying the backend password or
the explicit none marker. -/
theorem delivery_spec (cfg : Cfg) (env : Env) (album : String) (startAt fuel n now : Nat)
    (t : BTask)
    (hab : env.aborted n = false)
    (htime : now - startAt ≤ cfg.timeout)
    (hp : env.poll n = .ok t)
    (hdone : t.status = "done") :
    pollLoop cfg env album startAt (fuel + 1) n now = some (.done, donePart cfg env album t)
    ∧ (env.sendOk = true → t.download_url ≠ "" →
        deliverSend cfg env t = [.sendFile (cfg.endpoint ++ t.download_url)
          (if t.artifact_filename = "" then none else some t.artifact_filename)])
    ∧ (env.sendOk = true → t.download_url = "" →
        deliverSend cfg env t = [.sendText ("下载地址：" ++ t.download_url)])
    ∧ (env.sendOk = false →
        deliverSend cfg env t
          = [.sendText ("发送文件失败：" ++ env.deliverErr ++ " · 下载地址：" ++ t.download_url)])
    ∧ (donePart cfg env album t).getLast?
        = some (.post ("完成 [" ++ album ++ "] | 密码："
            ++ (if t.password = "" then "无" else t.password)))
    ∧ (t.password = "" →
        (donePart cfg env album t).getLast? = some (.post ("完成 [" ++ album ++ "] | 密码：无"))) := by
  have hform : donePart cfg env album t
      = (Act.post "打包完成，开始发送文件..." :: deliverSend cfg env t ++ [Act.recallLast])
        ++ [Act.post ("完成 [" ++ album ++ "] | 密码："
            ++ (if t.password = "" then "无" else t.password))] := by
    simp [donePart]
  refine ⟨?_, ?_, ?_, ?_, ?_, ?_⟩
  · rw [pollLoop_succ, if_neg (by simp [hab]), if_neg (by omega)]
    simp only [hp]
    rw [if_pos hdone]
  · intro hs hurl
    rw [deliverSend, if_pos hurl, if_pos hs]
  · intro hs hurl
    rw [deliverSend, if_neg (by simp [hurl]), if_pos hs]
  · intro hs
    by_cases hurl : t.download_url ≠ ""
    · rw [deliverSend, if_pos hurl, if_neg (by simp [hs])]
      rfl
    · rw [deliverSend, if_neg hurl, if_neg (by simp [hs])]
      rfl
  · rw [hform, List.getLast?_concat]
  · intro hpw
    rw [hform, List.getLast?_concat, hpw, if_pos rfl, String.append_assoc]
    rfl

def c8env : Env :=
  { aborted := fun _ => false, poll := fun _ => .ok c4task,
    pollDur := fun _ => 0, sendOk := true, deliverErr := "" }

/-- C8 (witness): the end-to-end done scenario: download reference
/files/a.zip resolves against the endpoint, the filename a.zip is attached,
and the completion notice carries the password abcd. -/
theorem delivery_spec_witness :
    pollLoop c4cfg c8env "12345" 0 1 0 0 = some (.done, donePart c4cfg c8env "12345" c4task)
    ∧ deliverSend c4cfg c8env c4task
        = [.sendFile ("http://127.0.0.1:7210" ++ "/files/a.zip") (some "a.zip")]
    ∧ (donePart c4cfg c8env "12345" c4task).getLast?
        = some (.post ("完成 [" ++ "12345" ++ "] | 密码：" ++ "abcd")) := by
  have h := delivery_spec c4cfg c8env "12345" 0 0 0 0 c4task rfl (by decide) rfl rfl
  refine ⟨h.1, ?_, ?_⟩
  · have h2 := h.2.1 rfl (by decide)
    rw [h2]
    rfl
  · have h5 := h.2.2.2.2.1
    rw [h5]
    rfl

/-! ### Claim C9: status message lifecycle -/

theorem recallLive_self (ids : Option (List Nat)) :
    recallLive true ids (ids.getD []) = [] := by
  rcases ids with _ | l
  · rfl
  · show (if true = true then l.filter (fun m => decide (m ∉ l)) else l) = []
    rw [if_pos rfl, List.filter_eq_nil_iff]
    intro a ha
    simp [ha]

/-- C9: updateStatus always recalls the previous status message and then
posts the new one (the recall deletes come strictly before the post, which
is the last action, and nothing is edited in place); delete failures are
swallowed, changing neither the action sequence nor the reference;
recallStatus always clears the reference and updateStatus sets it to the
send result, so the reference is non-null only between a post and its
recall; and with a transport that accepts the deletes, after any sequence of
operations the visible messages are exactly those of the current reference —
a job never has two live status messages at once. -/
theorem status_message_spec :
    (∀ (d : Bool) (c : Chat) (text : String) (res : Option (List Nat)),
        (mstep d c (.upd text res)).2 = recallActs c.statusMsg ++ [.post text]
        ∧ (mstep d c (.upd text res)).2.getLast? = some (.post text)
        ∧ (mstep d c (.upd text res)).2.dropLast = recallActs c.statusMsg
        ∧ (mstep d c (.upd text res)).1.statusMsg = res)
    ∧ (∀ (d : Bool) (c : Chat), (mstep d c .recall).1.statusMsg = none
        ∧ (mstep d c .recall).2 = recallActs c.statusMsg)
    ∧ (∀ (c : Chat) (op : MOp),
        (mstep false c op).1.statusMsg = (mstep true c op).1.statusMsg
        ∧ (mstep false c op).2 = (mstep true c op).2)
    ∧ (∀ ops : List MOp, (mrun true ops).live = (mrun true ops).statusMsg.getD []) := by
  refine ⟨?_, ?_, ?_, ?_⟩
  · intro d c text res
    refine ⟨rfl, ?_, ?_, rfl⟩
    · show (recallActs c.statusMsg ++ [MAct.post text]).getLast? = some (.post text)
      rw [List.getLast?_concat]
    · show (recallActs c.statusMsg ++ [MAct.post text]).dropLast = recallActs c.statusMsg
      rw [List.dropLast_concat]
  · intro d c
    exact ⟨rfl, rfl⟩
  · intro c op
    rcases op with ⟨text, res⟩ | _ <;> exact ⟨rfl, rfl⟩
  · have key : ∀ (ops : List MOp) (c : Chat), c.live = c.statusMsg.getD [] →
        (ops.foldl (fun c op => (mstep true c op).1) c).live
          = (ops.foldl (fun c op => (mstep true c op).1) c).statusMsg.getD [] := by
      intro ops
      induction ops with
      | nil =>
        intro c hc
        exact hc
      | cons op t ih =>
        intro c hc
        apply ih
        rcases op with ⟨text, res⟩ | _
        · show (recallLive true c.statusMsg c.live
              ++ (match res with | none => [] | some l => l)) = res.getD []
          rw [hc, recallLive_self]
          rcases res with _ | l <;> rfl
        · show recallLive true c.statusMsg c.live = (none : Option (List Nat)).getD []
          rw [hc, recallLive_self]
          rfl
    intro ops
    exact key ops initChat rfl

/-! ### Claim C10: the channel Map never holds an empty queue

The invariant is stated over the full step alphabet (enqueue, cancel, clear,
loop resume, interleaved arbitrarily and across channels): every Map entry
points at a non-empty array.  The supporting fields pin down the array
discipline: keys are unique, the arrays of distinct entries are distinct
objects, array ids are below the allocation counter, and an array mapped by
some entry can only be the captured array of a loop of that same channel. -/

structure InvFull (s : QM) : Prop where
  keysND : (s.queues.map Prod.fst).Nodup
  arrsND : (s.queues.map Prod.snd).Nodup
  entriesNE : ∀ p ∈ s.queues, s.heap p.2 ≠ []
  arrLt : ∀ p ∈ s.queues, p.2 < s.nextArr
  frameArrLt : ∀ f ∈ s.frames, f.arr < s.nextArr
  frameOwner : ∀ f ∈ s.frames, ∀ p ∈ s.queues, p.2 = f.arr → p.1 = f.cid

theorem nodup_append_singleton {α : Type} {l : List α} {x : α}
    (h : l.Nodup) (hx : x ∉ l) : (l ++ [x]).Nodup := by
  rw [List.nodup_append]
  refine ⟨h, List.nodup_singleton x, ?_⟩
  intro a ha hb
  rw [List.mem_singleton] at hb
  exact hx (hb ▸ ha)

theorem invFull_init : InvFull initQM := by
  refine ⟨?_, ?_, ?_, ?_, ?_, ?_⟩ <;> simp [initQM]

theorem invFull_maybeStart (s : QM) (c : String) (h : InvFull s) :
    InvFull (maybeStartStep s c) := by
  by_cases hr : c ∈ s.running
  · rw [maybeStartStep, if_pos hr]
    exact h
  · rw [maybeStartStep, if_neg hr]
    rcases hq : alookup s.queues c with _ | a
    · exact h
    · simp only []
      rcases hh : (s.heap a).head? with _ | x
      · exact h
      · have hmem : (c, a) ∈ s.queues := mem_of_alookup_eq_some hq
        refine ⟨h.keysND, h.arrsND, h.entriesNE, h.arrLt, ?_, ?_⟩
        all_goals simp only []
        · intro f hf
          rcases List.mem_append.mp hf with hf1 | hf1
          · exact h.frameArrLt f hf1
          · rw [List.mem_singleton] at hf1
            rw [hf1]
            exact h.arrLt (c, a) hmem
        · intro f hf p hp hpa
          rcases List.mem_append.mp hf with hf1 | hf1
          · exact h.frameOwner f hf1 p hp hpa
          · rw [List.mem_singleton] at hf1
            rw [hf1] at hpa ⊢
            have hpe : p = (c, a) :=
              inj_of_nodup_map h.arrsND hp hmem (by exact hpa)
            rw [hpe]

theorem invFull_enqueue (s : QM) (c j : String) (h : InvFull s) :
    InvFull (enqueueRet s c j).1 := by
  rcases hq : alookup s.queues c with _ | a
  · simp only [enqueueRet, hq]
    apply invFull_maybeStart
    have hcnot : c ∉ s.queues.map Prod.fst := (alookup_eq_none_iff _ _).mp hq
    refine ⟨?_, ?_, ?_, ?_, ?_, ?_⟩
    all_goals simp only []
    · rw [List.map_append]
      exact nodup_append_singleton h.keysND hcnot
    · rw [List.map_append]
      refine nodup_append_singleton h.arrsND ?_
      intro hmem
      rcases List.mem_map.mp hmem with ⟨p, hp, hpe⟩
      exact absurd (hpe ▸ h.arrLt p hp) (Nat.lt_irrefl _)
    · intro p hp
      rcases List.mem_append.mp hp with hp1 | hp1
      · rw [Function.update_noteq (Nat.ne_of_lt (h.arrLt p hp1))]
        exact h.entriesNE p hp1
      · rw [List.mem_singleton] at hp1
        rw [hp1]
        simp only []
        rw [Function.update_same]
        exact List.cons_ne_nil j []
    · intro p hp
      rcases List.mem_append.mp hp with hp1 | hp1
      · exact Nat.lt_trans (h.arrLt p hp1) (Nat.lt_succ_self _)
      · rw [List.mem_singleton] at hp1
        rw [hp1]
        exact Nat.lt_succ_self _
    · intro f hf
      exact Nat.lt_trans (h.frameArrLt f hf) (Nat.lt_succ_self _)
    · intro f hf p hp hpa
      rcases List.mem_append.mp hp with hp1 | hp1
      · exact h.frameOwner f hf p hp1 hpa
      · rw [List.mem_singleton] at hp1
        rw [hp1] at hpa
        exact absurd (hpa ▸ h.frameArrLt f hf) (Nat.lt_irrefl _)
  · simp only [enqueueRet, hq]
    apply invFull_maybeStart
    refine ⟨h.keysND, h.arrsND, ?_, h.arrLt, h.frameArrLt, h.frameOwner⟩
    simp only []
    intro p hp
    by_cases hpa : p.2 = a
    · rw [hpa, Function.update_same]
      intro hcon
      exact List.cons_ne_nil j [] (List.append_eq_nil.mp hcon).2
    · rw [Function.update_noteq hpa]
      exact h.entriesNE p hp

theorem invFull_cancel (s : QM) (c j : String) (h : InvFull s) :
    InvFull (cancelRet s c j).1 := by
  rcases hq : alookup s.queues c with _ | a
  · simp only [cancelRet, hq]
    exact h
  · simp only [cancelRet, hq]
    by_cases hqe : s.heap a = []
    · rw [if_pos hqe]
      exact h
    · rw [if_neg hqe]
      rcases hi : (s.heap a).findIdx? (fun x => x == j) with _ | i
      · simp only [hi]
        exact h
      · simp only [hi]
        by_cases hq2 : (s.heap a).eraseIdx i = []
        · rw [if_pos hq2]
          refine ⟨?_, ?_, ?_, ?_, h.frameArrLt, ?_⟩
          all_goals simp only []
          · exact ((aerase_sublist _ _).map Prod.fst).nodup h.keysND
          · exact ((aerase_sublist _ _).map Prod.snd).nodup h.arrsND
          · intro p hp
            have hp2 := (mem_aerase h.keysND p).mp hp
            have hpa : p.2 ≠ a := by
              intro he
              have hpe : p = (c, a) :=
                inj_of_nodup_map h.arrsND hp2.1 (mem_of_alookup_eq_some hq) (by exact he)
              exact hp2.2 (by rw [hpe])
            rw [Function.update_noteq hpa]
            exact h.entriesNE p hp2.1
          · intro p hp
            exact h.arrLt p ((aerase_sublist _ _).subset hp)
          · intro f hf p hp hpa
            exact h.frameOwner f hf p ((aerase_sublist _ _).subset hp) hpa
        · rw [if_neg hq2]
          refine ⟨h.keysND, h.arrsND, ?_, h.arrLt, h.frameArrLt, h.frameOwner⟩
          simp only []
          intro p hp
          by_cases hpa : p.2 = a
          · rw [hpa, Function.update_same]
            exact hq2
          · rw [Function.update_noteq hpa]
            exact h.entriesNE p hp

theorem invFull_clear (s : QM) (c : String) (h : InvFull s) :
    InvFull (clearRet s c).1 := by
  rcases hq : alookup s.queues c with _ | a
  · simp only [clearRet, hq]
    exact h
  · simp only [clearRet, hq]
    refine ⟨?_, ?_, ?_, ?_, h.frameArrLt, ?_⟩
    all_goals simp only []
    · exact ((aerase_sublist _ _).map Prod.fst).nodup h.keysND
    · exact ((aerase_sublist _ _).map Prod.snd).nodup h.arrsND
    · intro p hp
      exact h.entriesNE p ((aerase_sublist _ _).subset hp)
    · intro p hp
      exact h.arrLt p ((aerase_sublist _ _).subset hp)
    · intro f hf p hp hpa
      exact h.frameOwner f hf p ((aerase_sublist _ _).subset hp) hpa

theorem invFull_resume (s : QM) (k : Nat) (h : InvFull s) :
    InvFull (resumeStep s k) := by
  rcases hk : s.frames[k]? with _ | f
  · simp only [resumeStep, hk]
    exact h
  · simp only [resumeStep, hk]
    have hfmem : f ∈ s.frames := List.getElem?_mem hk
    have harr_unmapped : ∀ p ∈ s.queues, p.1 ≠ f.cid → p.2 ≠ f.arr := by
      intro p hp hpc hpa
      exact hpc (h.frameOwner f hfmem p hp hpa)
    rcases hh : ((s.heap f.arr).tail).head? with _ | x
    · simp only [hh]
      refine ⟨?_, ?_, ?_, ?_, ?_, ?_⟩
      all_goals simp only []
      · exact ((aerase_sublist _ _).map Prod.fst).nodup h.keysND
      · exact ((aerase_sublist _ _).map Prod.snd).nodup h.arrsND
      · intro p hp
        have hp2 := (mem_aerase h.keysND p).mp hp
        rw [Function.update_noteq (harr_unmapped p hp2.1 hp2.2)]
        exact h.entriesNE p hp2.1
      · intro p hp
        exact h.arrLt p ((aerase_sublist _ _).subset hp)
      · intro f2 hf2
        exact h.frameArrLt f2 ((List.eraseIdx_sublist _ _).subset hf2)
      · intro f2 hf2 p hp hpa
        exact h.frameOwner f2 ((List.eraseIdx_sublist _ _).subset hf2) p
          ((aerase_sublist _ _).subset hp) hpa
    · simp only [hh]
      refine ⟨h.keysND, h.arrsND, ?_, h.arrLt, ?_, ?_⟩
      all_goals simp only []
      · intro p hp
        by_cases hpa : p.2 = f.arr
        · rw [hpa, Function.update_same]
          intro hcon
          rw [hcon] at hh
          exact Option.noConfusion hh
        · rw [Function.update_noteq hpa]
          exact h.entriesNE p hp
      · intro f2 hf2
        rcases List.mem_or_eq_of_mem_set hf2 with hf3 | hf3
        · exact h.frameArrLt f2 hf3
        · rw [hf3]
          exact h.frameArrLt f hfmem
      · intro f2 hf2 p hp hpa
        rcases List.mem_or_eq_of_mem_set hf2 with hf3 | hf3
        · exact h.frameOwner f2 hf3 p hp hpa
        · rw [hf3] at hpa ⊢
          exact h.frameOwner f hfmem p hp hpa

theorem invFull_applyStep (s : QM) (st : Step) (h : InvFull s) : InvFull (applyStep s st) := by
  rcases st with ⟨c, j⟩ | ⟨c, j⟩ | c | k
  · exact invFull_enqueue s c j h
  · exact invFull_cancel s c j h
  · exact invFull_clear s c h
  · exact invFull_resume s k h

theorem invFull_runSteps (L : List Step) : InvFull (runSteps L) := by
  have key : ∀ (M : List Step) (s : QM), InvFull s → InvFull (M.foldl applyStep s) := by
    intro M
    induction M with
    | nil => intro s hs; exact hs
    | cons st t ih =>
      intro s hs
      exact ih (applyStep s st) (invFull_applyStep s st hs)
  exact key L initQM invFull_init

/-- C10: in every state reachable by any interleaving of enqueue, cancel,
clear and loop resumes across any channels, the channel Map never contains
an entry whose queue is empty, and consequently getSummary never reports a
known channel with length 0. -/
theorem queues_nonempty_spec (L : List Step) :
    (∀ p ∈ (runSteps L).queues, (runSteps L).heap p.2 ≠ [])
    ∧ (∀ e ∈ getSummary (runSteps L), 0 < e.2.length) := by
  have h := invFull_runSteps L
  refine ⟨h.entriesNE, ?_⟩
  intro e he
  rcases List.mem_map.mp he with ⟨p, hp, hpe⟩
  have hne := h.entriesNE p hp
  rw [← hpe]
  exact List.length_pos.mpr hne

/-- C10 (witness): the invariant read off a concrete reachable state. -/
theorem queues_nonempty_witness :
    (runSteps [Step.enq "c" "J1"]).heap 0 ≠ []
    ∧ 0 < (⟨true, 1, [("J1", "running")]⟩ : SumEntry).length :=
  ⟨(queues_nonempty_spec [Step.enq "c" "J1"]).1 ("c", 0) (by decide),
   (queues_nonempty_spec [Step.enq "c" "J1"]).2 ("c", ⟨true, 1, [("J1", "running")]⟩) (by decide)⟩

/-! ### Claim C1: FIFO completion and single flight under enqueues

Characterizations of the two steps an enqueue-only trace can take, then an
invariant tying the running set, the loop frames, the Map and the ghost
logs together. -/

theorem enqueueRet_running (s : QM) (c j : String) (a : Nat)
    (hq : alookup s.queues c = some a) (hr : c ∈ s.running) :
    (enqueueRet s c j).1
      = { s with heap := Function.update s.heap a (s.heap a ++ [j]),
                 enqueuedLog := s.enqueuedLog ++ [(c, j)] } := by
  simp only [enqueueRet, hq]
  exact maybeStartStep_frames_of_running _ c hr

theorem enqueueRet_idle (s : QM) (c j : String)
    (hq : alookup s.queues c = none) (hr : c ∉ s.running) :
    (enqueueRet s c j).1
      = { s with heap := Function.update s.heap s.nextArr [j],
                 queues := s.queues ++ [(c, s.nextArr)],
                 nextArr := s.nextArr + 1,
                 enqueuedLog := s.enqueuedLog ++ [(c, j)],
                 running := c :: s.running,
                 frames := s.frames ++ [⟨c, s.nextArr, j⟩] } := by
  simp only [enqueueRet, hq, maybeStartStep]
  rw [if_neg hr]
  rw [alookup_append_of_none _ hq, alookup, if_pos rfl]
  simp only [Function.update_same, List.head?_cons]

theorem resumeStep_continue (s : QM) (k : Nat) (f : Frame) (x : String)
    (hk : s.frames[k]? = some f) (hh : (s.heap f.arr).tail.head? = some x) :
    resumeStep s k
      = { s with heap := Function.update s.heap f.arr (s.heap f.arr).tail,
                 completedLog := s.completedLog ++ [(f.cid, f.cur)],
                 frames := s.frames.set k { f with cur := x } } := by
  simp only [resumeStep, hk, hh]

theorem resumeStep_cleanup (s : QM) (k : Nat) (f : Frame)
    (hk : s.frames[k]? = some f) (hh : (s.heap f.arr).tail.head? = none) :
    resumeStep s k
      = { s with heap := Function.update s.heap f.arr (s.heap f.arr).tail,
                 completedLog := s.completedLog ++ [(f.cid, f.cur)],
                 frames := s.frames.eraseIdx k,
                 running := s.running.erase f.cid,
                 queues := aerase s.queues f.cid } := by
  simp only [resumeStep, hk, hh]

theorem head?_append_left {α : Type} {l : List α} (m : List α) (h : l ≠ []) :
    (l ++ m).head? = l.head? := by
  cases l with
  | nil => exact absurd rfl h
  | cons a t => rfl

theorem filtermap_append (log : List (String × String)) (c c2 j : String) :
    (((log ++ [(c2, j)]).filter (fun p => p.1 == c)).map Prod.snd)
      = ((log.filter (fun p => p.1 == c)).map Prod.snd) ++ (if c2 = c then [j] else []) := by
  rw [List.filter_append, List.map_append]
  congr 1
  by_cases he : c2 = c
  · simp [he]
  · simp [he]

theorem map_eraseIdx {α β : Type} (g : α → β) :
    ∀ (l : List α) (k : Nat), (l.eraseIdx k).map g = (l.map g).eraseIdx k := by
  intro l
  induction l with
  | nil => intro k; rfl
  | cons y t ih =>
    intro k
    cases k with
    | zero => rfl
    | succ k =>
      simp only [List.eraseIdx_cons_succ, List.map_cons]
      rw [ih k]

theorem mem_eraseIdx_of_nodup {α : Type} {l : List α} (hnd : l.Nodup) {k : Nat} {a : α}
    (hk : l[k]? = some a) (x : α) : x ∈ l.eraseIdx k ↔ x ∈ l ∧ x ≠ a := by
  induction l generalizing k with
  | nil => simp at hk
  | cons y t ih =>
    rw [List.nodup_cons] at hnd
    cases k with
    | zero =>
      simp at hk
      rw [List.eraseIdx_cons_zero]
      constructor
      · intro hx
        refine ⟨List.mem_cons_of_mem _ hx, ?_⟩
        intro he
        apply hnd.1
        rw [show y = x from hk.trans he.symm]
        exact hx
      · rintro ⟨hx, hne⟩
        rcases List.mem_cons.mp hx with h1 | h1
        · exact absurd (h1.trans hk) hne
        · exact h1
    | succ k =>
      simp at hk
      rw [List.eraseIdx_cons_succ]
      have hat : a ∈ t := List.getElem?_mem hk
      constructor
      · intro hx
        rcases List.mem_cons.mp hx with h1 | h1
        · refine ⟨by rw [h1]; exact List.mem_cons_self y t, ?_⟩
          intro he
          apply hnd.1
          rw [show y = a from h1.symm.trans he]
          exact hat
        · have h2 := (ih hnd.2 hk).mp h1
          exact ⟨List.mem_cons_of_mem _ h2.1, h2.2⟩
      · rintro ⟨hx, hne⟩
        rcases List.mem_cons.mp hx with h1 | h1
        · rw [h1]
          exact List.mem_cons_self y _
        · exact List.mem_cons_of_mem _ ((ih hnd.2 hk).mpr ⟨h1, hne⟩)

theorem mem_set_nodup {α : Type} {l : List α} (hnd : l.Nodup) {k : Nat} {a : α}
    (hk : l[k]? = some a) (b x : α) :
    x ∈ l.set k b ↔ (x ∈ l ∧ x ≠ a) ∨ x = b := by
  induction l generalizing k with
  | nil => simp at hk
  | cons y t ih =>
    rw [List.nodup_cons] at hnd
    cases k with
    | zero =>
      simp at hk
      rw [List.set_cons_zero]
      constructor
      · intro hx
        rcases List.mem_cons.mp hx with h1 | h1
        · exact Or.inr h1
        · refine Or.inl ⟨List.mem_cons_of_mem _ h1, ?_⟩
          intro he
          apply hnd.1
          rw [show y = x from hk.trans he.symm]
          exact h1
      · rintro (⟨hx, hne⟩ | hx)
        · rcases List.mem_cons.mp hx with h1 | h1
          · exact absurd (h1.trans hk) hne
          · exact List.mem_cons_of_mem _ h1
        · rw [hx]
          exact List.mem_cons_self b t
    | succ k =>
      simp at hk
      rw [List.set_cons_succ]
      have hat : a ∈ t := List.getElem?_mem hk
      constructor
      · intro hx
        rcases List.mem_cons.mp hx with h1 | h1
        · refine Or.inl ⟨by rw [h1]; exact List.mem_cons_self y t, ?_⟩
          intro he
          apply hnd.1
          rw [show y = a from h1.symm.trans he]
          exact hat
        · rcases (ih hnd.2 hk).mp h1 with ⟨h2, h3⟩ | h2
          · exact Or.inl ⟨List.mem_cons_of_mem _ h2, h3⟩
          · exact Or.inr h2
      · rintro (⟨hx, hne⟩ | hx)
        · rcases List.mem_cons.mp hx with h1 | h1
          · rw [h1]
            exact List.mem_cons_self y _
          · exact List.mem_cons_of_mem _ ((ih hnd.2 hk).mpr (Or.inl ⟨h1, hne⟩))
        · exact List.mem_cons_of_mem _ ((ih hnd.2 hk).mpr (Or.inr hx))

theorem map_set_eq {α β : Type} (g : α → β) {l : List α} {k : Nat} {a : α}
    (hk : l[k]? = some a) (b : α) (hab : g b = g a) :
    (l.set k b).map g = l.map g := by
  induction l generalizing k with
  | nil => simp at hk
  | cons y t ih =>
    cases k with
    | zero =>
      simp at hk
      rw [List.set_cons_zero, List.map_cons, List.map_cons, hab, hk]
    | succ k =>
      simp at hk
      rw [List.set_cons_succ, List.map_cons, List.map_cons, ih hk]

theorem filter_cid_len_le {l : List Frame} (hnd : (l.map Frame.cid).Nodup) (c : String) :
    (l.filter (fun f => f.cid == c)).length ≤ 1 := by
  induction l with
  | nil => simp
  | cons f t ih =>
    rw [List.map_cons, List.nodup_cons] at hnd
    rw [List.filter_cons]
    by_cases hc : f.cid = c
    · rw [if_pos (by simp [hc])]
      have hrest : t.filter (fun f2 => f2.cid == c) = [] := by
        rw [List.filter_eq_nil_iff]
        intro f2 hf2 hcon
        rw [beq_iff_eq] at hcon
        exact hnd.1 (List.mem_map.mpr ⟨f2, hf2, hcon.trans hc.symm⟩)
      rw [hrest]
      exact Nat.le_refl 1
    · rw [if_neg (by simp [hc])]
      exact ih hnd.2

structure InvE (s : QM) : Prop where
  full : InvFull s
  runND : s.running.Nodup
  framesND : (s.frames.map Frame.cid).Nodup
  runIff : ∀ c, c ∈ s.running ↔ c ∈ s.frames.map Frame.cid
  entryIff : ∀ c, (alookup s.queues c).isSome = true ↔ c ∈ s.running
  frameOk : ∀ f ∈ s.frames, alookup s.queues f.cid = some f.arr
      ∧ (s.heap f.arr).head? = some f.cur
  logEq : ∀ c, completedFor s c ++ queueOf s c = enqueuedFor s c

theorem invE_init : InvE initQM := by
  refine ⟨invFull_init, ?_, ?_, ?_, ?_, ?_, ?_⟩ <;>
    simp [initQM, completedFor, queueOf, enqueuedFor, alookup]

theorem invE_enqueue (s : QM) (c j : String) (h : InvE s) : InvE (enqueueRet s c j).1 := by
  have hful : InvFull (enqueueRet s c j).1 := invFull_enqueue s c j h.full
  by_cases hr : c ∈ s.running
  · rcases Option.isSome_iff_exists.mp ((h.entryIff c).mpr hr) with ⟨a, hq⟩
    have hchar := enqueueRet_running s c j a hq hr
    rw [hchar] at hful ⊢
    have hane : s.heap a ≠ [] := h.full.entriesNE (c, a) (mem_of_alookup_eq_some hq)
    refine ⟨hful, h.runND, h.framesND, h.runIff, h.entryIff, ?_, ?_⟩
    · intro f hf
      have hold := h.frameOk f hf
      refine ⟨hold.1, ?_⟩
      show (Function.update s.heap a (s.heap a ++ [j]) f.arr).head? = some f.cur
      by_cases hfa : f.arr = a
      · rw [hfa, Function.update_same, head?_append_left _ hane, ← hfa]
        exact hold.2
      · rw [Function.update_noteq hfa]
        exact hold.2
    · intro c2
      have hlog := h.logEq c2
      simp only [completedFor, enqueuedFor, queueOf] at hlog ⊢
      rw [filtermap_append]
      by_cases hc2 : c = c2
      · subst hc2
        rw [if_pos rfl]
        simp only [hq] at hlog ⊢
        rw [Function.update_same, ← List.append_assoc, hlog]
      · rw [if_neg hc2, List.append_nil]
        rcases hq2 : alookup s.queues c2 with _ | a2
        · simp only [hq2] at hlog ⊢
          exact hlog
        · simp only [hq2] at hlog ⊢
          have hane2 : a2 ≠ a :=
            alookup_ne_of_nodup_snd h.full.arrsND hq2 hq (fun he => hc2 he.symm)
          rw [Function.update_noteq hane2]
          exact hlog
  · have hq : alookup s.queues c = none := by
      rcases hqo : alookup s.queues c with _ | a
      · rfl
      · exact absurd ((h.entryIff c).mp (by rw [hqo]; rfl)) hr
    have hchar := enqueueRet_idle s c j hq hr
    rw [hchar] at hful ⊢
    refine ⟨hful, ?_, ?_, ?_, ?_, ?_, ?_⟩
    · exact List.nodup_cons.mpr ⟨hr, h.runND⟩
    · show (List.map Frame.cid (s.frames ++ [⟨c, s.nextArr, j⟩])).Nodup
      rw [List.map_append, List.map_cons, List.map_nil]
      exact nodup_append_singleton h.framesND (fun hm => hr ((h.runIff c).mpr hm))
    · intro c2
      show c2 ∈ c :: s.running ↔ c2 ∈ List.map Frame.cid (s.frames ++ [⟨c, s.nextArr, j⟩])
      rw [List.map_append, List.map_cons, List.map_nil]
      constructor
      · intro hm
        rcases List.mem_cons.mp hm with h1 | h1
        · exact List.mem_append.mpr (Or.inr (by rw [h1]; exact List.mem_singleton.mpr rfl))
        · exact List.mem_append.mpr (Or.inl ((h.runIff c2).mp h1))
      · intro hm
        rcases List.mem_append.mp hm with h1 | h1
        · exact List.mem_cons_of_mem _ ((h.runIff c2).mpr h1)
        · rw [List.mem_singleton] at h1
          rw [h1]
          exact List.mem_cons_self c _
    · intro c2
      by_cases hc2 : c2 = c
      · subst hc2
        show (alookup (s.queues ++ [(c2, s.nextArr)]) c2).isSome = true ↔ c2 ∈ c2 :: s.running
        rw [alookup_append_of_none _ hq, alookup, if_pos rfl]
        simp
      · show (alookup (s.queues ++ [(c, s.nextArr)]) c2).isSome = true ↔ c2 ∈ c :: s.running
        rw [alookup_append_single_ne _ _ (fun he => hc2 he.symm)]
        constructor
        · intro hi
          exact List.mem_cons_of_mem _ ((h.entryIff c2).mp hi)
        · intro hm
          rcases List.mem_cons.mp hm with h1 | h1
          · exact absurd h1 hc2
          · exact (h.entryIff c2).mpr h1
    · intro f hf
      rcases List.mem_append.mp hf with hf1 | hf1
      · have hold := h.frameOk f hf1
        have hfc : f.cid ≠ c := by
          intro he
          exact hr ((h.runIff c).mpr (he ▸ List.mem_map.mpr ⟨f, hf1, rfl⟩))
        refine ⟨?_, ?_⟩
        · show alookup (s.queues ++ [(c, s.nextArr)]) f.cid = some f.arr
          rw [alookup_append_single_ne _ _ (fun he => hfc he.symm)]
          exact hold.1
        · show (Function.update s.heap s.nextArr [j] f.arr).head? = some f.cur
          rw [Function.update_noteq (Nat.ne_of_lt (h.full.frameArrLt f hf1))]
          exact hold.2
      · rw [List.mem_singleton] at hf1
        subst hf1
        refine ⟨?_, ?_⟩
        · show alookup (s.queues ++ [(c, s.nextArr)]) c = some s.nextArr
          rw [alookup_append_of_none _ hq, alookup, if_pos rfl]
        · show (Function.update s.heap s.nextArr [j] s.nextArr).head? = some j
          rw [Function.update_same]
          rfl
    · intro c2
      have hlog := h.logEq c2
      simp only [completedFor, enqueuedFor, queueOf] at hlog ⊢
      rw [filtermap_append]
      by_cases hc2 : c = c2
      · subst hc2
        rw [if_pos rfl]
        have hl2 : alookup (s.queues ++ [(c, s.nextArr)]) c = some s.nextArr := by
          rw [alookup_append_of_none _ hq, alookup, if_pos rfl]
        simp only [hl2]
        simp only [hq] at hlog
        rw [List.append_nil] at hlog
        rw [Function.update_same, hlog]
      · rw [if_neg hc2, List.append_nil]
        rw [alookup_append_single_ne _ _ hc2]
        rcases hq2 : alookup s.queues c2 with _ | a2
        · simp only [hq2] at hlog ⊢
          exact hlog
        · simp only [hq2] at hlog ⊢
          rw [Function.update_noteq
            (Nat.ne_of_lt (h.full.arrLt (c2, a2) (mem_of_alookup_eq_some hq2)))]
          exact hlog

theorem invE_resume (s : QM) (k : Nat) (h : InvE s) : InvE (resumeStep s k) := by
  have hful : InvFull (resumeStep s k) := invFull_resume s k h.full
  rcases hk : s.frames[k]? with _ | f
  · simp only [resumeStep, hk]
    exact h
  · have hfmem : f ∈ s.frames := List.getElem?_mem hk
    have hfok := h.frameOk f hfmem
    have hcids : (s.frames.map Frame.cid)[k]? = some f.cid := by
      rw [List.getElem?_map, hk]
      rfl
    have hfnd : s.frames.Nodup := h.framesND.of_map
    rcases hh : (s.heap f.arr).tail.head? with _ | x
    · have hchar := resumeStep_cleanup s k f hk hh
      rw [hchar] at hful ⊢
      have htail : (s.heap f.arr).tail = [] := by
        rwa [List.head?_eq_none_iff] at hh
      refine ⟨hful, ?_, ?_, ?_, ?_, ?_, ?_⟩
      · exact (List.erase_sublist _ _).nodup h.runND
      · show (List.map Frame.cid (s.frames.eraseIdx k)).Nodup
        rw [map_eraseIdx]
        exact (List.eraseIdx_sublist _ _).nodup h.framesND
      · intro c2
        show c2 ∈ s.running.erase f.cid ↔ c2 ∈ List.map Frame.cid (s.frames.eraseIdx k)
        rw [map_eraseIdx, List.Nodup.mem_erase_iff h.runND,
          mem_eraseIdx_of_nodup h.framesND hcids c2, h.runIff c2]
        constructor
        · rintro ⟨h1, h2⟩
          exact ⟨h2, h1⟩
        · rintro ⟨h1, h2⟩
          exact ⟨h2, h1⟩
      · intro c2
        by_cases hc2 : c2 = f.cid
        · subst hc2
          show (alookup (aerase s.queues f.cid) f.cid).isSome = true
            ↔ f.cid ∈ s.running.erase f.cid
          rw [alookup_aerase_self h.full.keysND, List.Nodup.mem_erase_iff h.runND]
          simp
        · show (alookup (aerase s.queues f.cid) c2).isSome = true ↔ c2 ∈ s.running.erase f.cid
          rw [alookup_aerase_ne hc2, List.Nodup.mem_erase_iff h.runND, h.entryIff c2]
          constructor
          · intro hm
            exact ⟨hc2, hm⟩
          · intro hm
            exact hm.2
      · intro f2 hf2
        have h2 := (mem_eraseIdx_of_nodup hfnd hk f2).mp hf2
        have hcne : f2.cid ≠ f.cid := by
          intro he
          exact h2.2 (inj_of_nodup_map h.framesND h2.1 hfmem he)
        have hold := h.frameOk f2 h2.1
        refine ⟨?_, ?_⟩
        · show alookup (aerase s.queues f.cid) f2.cid = some f2.arr
          rw [alookup_aerase_ne hcne]
          exact hold.1
        · show (Function.update s.heap f.arr (s.heap f.arr).tail f2.arr).head? = some f2.cur
          have hane : f2.arr ≠ f.arr :=
            alookup_ne_of_nodup_snd h.full.arrsND hold.1 hfok.1 hcne
          rw [Function.update_noteq hane]
          exact hold.2
      · intro c2
        have hlog := h.logEq c2
        simp only [completedFor, enqueuedFor, queueOf] at hlog ⊢
        rw [filtermap_append]
        by_cases hc2 : f.cid = c2
        · subst hc2
          rw [if_pos rfl]
          rw [alookup_aerase_self h.full.keysND]
          simp only [hfok.1] at hlog
          rw [head?_cons_tail hfok.2, htail] at hlog
          rw [List.append_nil]
          exact hlog
        · rw [if_neg hc2, List.append_nil]
          rw [alookup_aerase_ne (fun he => hc2 he.symm)]
          rcases hq2 : alookup s.queues c2 with _ | a2
          · simp only [hq2] at hlog ⊢
            exact hlog
          · simp only [hq2] at hlog ⊢
            have hane : a2 ≠ f.arr :=
              alookup_ne_of_nodup_snd h.full.arrsND hq2 hfok.1 (fun he => hc2 he.symm)
            rw [Function.update_noteq hane]
            exact hlog
    · have hchar := resumeStep_continue s k f x hk hh
      rw [hchar] at hful ⊢
      refine ⟨hful, h.runND, ?_, ?_, h.entryIff, ?_, ?_⟩
      · show (List.map Frame.cid (s.frames.set k { f with cur := x })).Nodup
        rw [map_set_eq Frame.cid hk { f with cur := x } rfl]
        exact h.framesND
      · intro c2
        show c2 ∈ s.running ↔ c2 ∈ List.map Frame.cid (s.frames.set k { f with cur := x })
        rw [map_set_eq Frame.cid hk { f with cur := x } rfl]
        exact h.runIff c2
      · intro f2 hf2
        rcases (mem_set_nodup hfnd hk { f with cur := x } f2).mp hf2 with ⟨h2, hne⟩ | h2
        · have hcne : f2.cid ≠ f.cid := by
            intro he
            exact hne (inj_of_nodup_map h.framesND h2 hfmem he)
          have hold := h.frameOk f2 h2
          refine ⟨hold.1, ?_⟩
          show (Function.update s.heap f.arr (s.heap f.arr).tail f2.arr).head? = some f2.cur
          have hane : f2.arr ≠ f.arr :=
            alookup_ne_of_nodup_snd h.full.arrsND hold.1 hfok.1 hcne
          rw [Function.update_noteq hane]
          exact hold.2
        · subst h2
          refine ⟨hfok.1, ?_⟩
          show (Function.update s.heap f.arr (s.heap f.arr).tail f.arr).head? = some x
          rw [Function.update_same]
          exact hh
      · intro c2
        have hlog := h.logEq c2
        simp only [completedFor, enqueuedFor, queueOf] at hlog ⊢
        rw [filtermap_append]
        by_cases hc2 : f.cid = c2
        · subst hc2
          rw [if_pos rfl]
          simp only [hfok.1] at hlog ⊢
          rw [Function.update_same]
          rw [head?_cons_tail hfok.2, List.append_cons] at hlog
          exact hlog
        · rw [if_neg hc2, List.append_nil]
          rcases hq2 : alookup s.queues c2 with _ | a2
          · simp only [hq2] at hlog ⊢
            exact hlog
          · simp only [hq2] at hlog ⊢
            have hane : a2 ≠ f.arr :=
              alookup_ne_of_nodup_snd h.full.arrsND hq2 hfok.1 (fun he => hc2 he.symm)
            rw [Function.update_noteq hane]
            exact hlog

def isEnqResume : Step → Bool
  | .enq _ _ => true
  | .resume _ => true
  | _ => false

theorem invE_runSteps (L : List Step) (hL : L.all isEnqResume = true) : InvE (runSteps L) := by
  have key : ∀ (M : List Step) (s : QM), M.all isEnqResume = true → InvE s →
      InvE (M.foldl applyStep s) := by
    intro M
    induction M with
    | nil =>
      intro s _ hs
      exact hs
    | cons st t ih =>
      intro s hall hs
      rw [List.all_cons, Bool.and_eq_true] at hall
      refine ih (applyStep s st) hall.2 ?_
      rcases st with ⟨c, j⟩ | ⟨c, j⟩ | c | k
      · exact invE_enqueue s c j hs
      · exact absurd hall.1 (by simp [isEnqResume])
      · exact absurd hall.1 (by simp [isEnqResume])
      · exact invE_resume s k hs
  exact key L initQM hL invE_init

/-- C1: along any trace made only of enqueues and loop resumes (arbitrarily
interleaved, over any channels), jobs reach their terminal state in exactly
the order they were enqueued into their channel — the completed log followed
by the jobs still queued is exactly the enqueue log of the channel; at any
instant at most one loop frame per channel exists (at most one job per
channel is running); and an enqueue into a channel whose loop is active adds
no frame: it only appends the job to the tail of that channel's queue. -/
theorem fifo_single_flight_spec (L : List Step) (hL : L.all isEnqResume = true) (c : String) :
    completedFor (runSteps L) c ++ queueOf (runSteps L) c = enqueuedFor (runSteps L) c
    ∧ (framesFor (runSteps L) c).length ≤ 1
    ∧ ∀ j, c ∈ (runSteps L).running →
        (applyStep (runSteps L) (Step.enq c j)).frames = (runSteps L).frames
        ∧ queueOf (applyStep (runSteps L) (Step.enq c j)) c = queueOf (runSteps L) c ++ [j] := by
  have h := invE_runSteps L hL
  refine ⟨h.logEq c, filter_cid_len_le h.framesND c, ?_⟩
  intro j hr
  rcases Option.isSome_iff_exists.mp ((h.entryIff c).mpr hr) with ⟨a, hq⟩
  have hchar := enqueueRet_running (runSteps L) c j a hq hr
  constructor
  · show (enqueueRet (runSteps L) c j).1.frames = (runSteps L).frames
    rw [hchar]
  · show queueOf (enqueueRet (runSteps L) c j).1 c = queueOf (runSteps L) c ++ [j]
    rw [hchar]
    simp only [queueOf, hq]
    rw [Function.update_same]

/-- C1 (witness): a two-job trace on one channel with one completed
iteration satisfies the FIFO log equation and single flight, and was built
from enqueues and resumes only. -/
theorem fifo_single_flight_witness :
    completedFor (runSteps [Step.enq "w" "A", Step.enq "w" "B", Step.resume 0]) "w"
        ++ queueOf (runSteps [Step.enq "w" "A", Step.enq "w" "B", Step.resume 0]) "w"
      = enqueuedFor (runSteps [Step.enq "w" "A", Step.enq "w" "B", Step.resume 0]) "w"
    ∧ (framesFor (runSteps [Step.enq "w" "A", Step.enq "w" "B", Step.resume 0]) "w").length ≤ 1 :=
  ⟨(fifo_single_flight_spec [Step.enq "w" "A", Step.enq "w" "B", Step.resume 0]
      (by decide) "w").1,
   (fifo_single_flight_spec [Step.enq "w" "A", Step.enq "w" "B", Step.resume 0]
      (by decide) "w").2.1⟩
